import Mathlib

/-!
Shallow embedding of the 16-bit SIC simulator (src/CPU.cpp) and proofs of
the specification claims.

Conventions of the embedding:
* `uint16_t` values are `Nat` with an explicit `% 65536` wherever the C++
  performs a narrowing conversion to `uint16_t` (assignment, return value).
* Memory is a function `Int → Nat`; `writeWord` masks stored bytes with
  `&&& 0xFF` exactly as the source does, and the initial memory is all zeros
  (`std::vector<uint8_t> mem(MEM_SIZE, 0)`).
* C++ exceptions are explicit: operations that can throw return either an
  `Except Err _` or a `_ × Option Err` pair carrying the state as it is at
  the moment the exception propagates (mutations before a throw persist,
  exactly as with the reference-semantics C++ objects).
-/

namespace SIC

/-- Error kinds raised by the simulator: `std::out_of_range` from `Memory`,
the two `std::runtime_error`s from `ALU::div`/`ALU::mod` and the `default:`
branch of `CPU::execute`, and `std::invalid_argument` from `std::stoi`. -/
inductive Err where
  | OutOfRange
  | DivisionByZero
  | UnknownOpcode
  | InvalidArgument
deriving DecidableEq, Repr

/-! ## ALU (`class ALU`, src/CPU.cpp lines 10-22) -/

namespace ALU

/-- Source: `uint16_t add(uint16_t a, uint16_t b)` returning `a + b`;
the `int` sum is narrowed to `uint16_t` on return. -/
def add (a b : Nat) : Nat := (a + b) % 65536

/-- Source: `uint16_t mul(uint16_t a, uint16_t b)` returning `a * b`,
narrowed to `uint16_t` on return. -/
def mul (a b : Nat) : Nat := (a * b) % 65536

/-- Source: `uint16_t div(uint16_t a, uint16_t b)`: throws on `b == 0`, else `a / b`
narrowed to `uint16_t` on return. -/
def div (a b : Nat) : Except Err Nat :=
  if b = 0 then .error .DivisionByZero else .ok ((a / b) % 65536)

/-- Source: `uint16_t mod(uint16_t a, uint16_t b)`: throws on `b == 0`, else `a % b`
narrowed to `uint16_t` on return. -/
def mod (a b : Nat) : Except Err Nat :=
  if b = 0 then .error .DivisionByZero else .ok ((a % b) % 65536)

end ALU

/-! ## Memory (`class Memory`, src/CPU.cpp lines 25-69) -/

/-- The byte store of `class Memory`: value of each cell, addressed by the
(signed, as in the C++ `int address` parameters) address. -/
def Mem : Type := Int → Nat

/-- Source: `static const int MEM_SIZE = 4096;`. -/
def MEM_SIZE : Int := 4096

/-- Source: the `Memory` constructor, `mem(MEM_SIZE, 0)` — zero-initialized. -/
def Memory.init : Mem := fun _ => 0

/-- Source: `uint16_t readWord(int address)`: throws `std::out_of_range` when
`address < 0 || address >= MEM_SIZE - 1`; otherwise returns
`(mem[address] << 8) | mem[address + 1]` narrowed to `uint16_t`. -/
def Memory.readWord (mem : Mem) (address : Int) : Except Err Nat :=
  if address < 0 ∨ MEM_SIZE - 1 ≤ address then .error .OutOfRange
  else .ok (((mem address <<< 8) ||| mem (address + 1)) % 65536)

/-- Source: `void writeWord(int address, uint16_t value)`: same bounds check; stores
`(value >> 8) & 0xFF` at `address` and `value & 0xFF` at `address + 1`. -/
def Memory.writeWord (mem : Mem) (address : Int) (value : Nat) : Except Err Mem :=
  if address < 0 ∨ MEM_SIZE - 1 ≤ address then .error .OutOfRange
  else .ok (fun x =>
    if x = address then (value >>> 8) &&& 0xFF
    else if x = address + 1 then value &&& 0xFF
    else mem x)

/-! ## CPU (`class CPU`, src/CPU.cpp lines 92-180)

The three `Register` members (each a `uint16_t value` cell, default 0,
with trivial `read`/`write`) and the borrowed `Memory` are gathered into
one state record. -/

structure CPUState where
  PC : Nat
  IR : Nat
  AC : Nat
  mem : Mem

/-- The power-on state: registers default to 0, memory zero-initialized. -/
def CPUState.init : CPUState := { PC := 0, IR := 0, AC := 0, mem := Memory.init }

/-- Source: `void fetch()`: reads the word at `PC` into `IR` and writes `PC + 2`
back (narrowed to `uint16_t`).  A throwing `readWord` propagates before
either register is written. -/
def CPU.fetch (s : CPUState) : CPUState × Option Err :=
  match Memory.readWord s.mem (s.PC : Int) with
  | .error e => (s, some e)
  | .ok instruction => ({ s with IR := instruction, PC := (s.PC + 2) % 65536 }, none)

/-- Source: `void execute()`: decodes `opcode = (IR >> 12) & 0xF` and
`operand = IR & 0xFFF` and dispatches through the `switch`, following the
source case order `0xF, 0x2, 0x3, 0x4, 0x5, 0x1, 0x0, default`.  A throwing
`ALU.div`/`ALU.mod`/`writeWord`/`readWord` propagates before the pending
`AC.write`/member update happens. -/
def CPU.execute (s : CPUState) : CPUState × Option Err :=
  let opcode := (s.IR >>> 12) &&& 0xF
  let operand := s.IR &&& 0xFFF
  if opcode = 0xF then ({ s with AC := operand }, none)
  else if opcode = 0x2 then ({ s with AC := ALU.add s.AC operand }, none)
  else if opcode = 0x3 then ({ s with AC := ALU.mul s.AC operand }, none)
  else if opcode = 0x4 then
    match ALU.div s.AC operand with
    | .error e => (s, some e)
    | .ok v => ({ s with AC := v }, none)
  else if opcode = 0x5 then
    match ALU.mod s.AC operand with
    | .error e => (s, some e)
    | .ok v => ({ s with AC := v }, none)
  else if opcode = 0x1 then
    match Memory.writeWord s.mem (operand : Int) s.AC with
    | .error e => (s, some e)
    | .ok m => ({ s with mem := m }, none)
  else if opcode = 0x0 then
    match Memory.readWord s.mem (operand : Int) with
    | .error e => (s, some e)
    | .ok v => ({ s with AC := v }, none)
  else (s, some .UnknownOpcode)

/-- One iteration of the `while (true)` body of `run()`: `fetch()` then
`execute()`, stopping (with the state at that point) at the first error. -/
def CPU.step (s : CPUState) : CPUState × Option Err :=
  match CPU.fetch s with
  | (s', some e) => (s', some e)
  | (s', none) => CPU.execute s'

/-- Runs `n` iterations of the run loop, halting early at the first error
(which terminates the loop of `run()` in the source). -/
def CPU.runN : Nat → CPUState → CPUState × Option Err
  | 0, s => (s, none)
  | n + 1, s =>
    match CPU.step s with
    | (s', none) => CPU.runN n s'
    | (s', some e) => (s', some e)

/-! ## Loader (`loadProgram`, src/CPU.cpp lines 183-215) -/

/-- Source: `line.substr(0, line.find(' '))`: the characters before the first space;
when there is no space, `find` returns `npos` and `substr(0, npos)` yields the
whole line. -/
def mnemonicStr (cs : List Char) : List Char :=
  match cs.findIdx? (· = ' ') with
  | some i => cs.take i
  | none => cs

/-- Source: `line.substr(line.find(' ') + 1)`: the characters after the first space;
when there is no space, `npos + 1` wraps to `0` and `substr(0)` yields the
whole line. -/
def operandStr (cs : List Char) : List Char :=
  match cs.findIdx? (· = ' ') with
  | some i => cs.drop (i + 1)
  | none => cs

/-- Value of a hexadecimal digit character, if it is one. -/
def hexVal? (c : Char) : Option Nat :=
  if '0' ≤ c ∧ c ≤ '9' then some (c.toNat - '0'.toNat)
  else if 'a' ≤ c ∧ c ≤ 'f' then some (c.toNat - 'a'.toNat + 10)
  else if 'A' ≤ c ∧ c ≤ 'F' then some (c.toNat - 'A'.toNat + 10)
  else none

/-- Accumulates the leading hexadecimal digits, stopping at the first
non-digit, as `std::stoi` does. -/
def stoiHexLoop : List Char → Nat → Nat
  | [], acc => acc
  | c :: rest, acc =>
    match hexVal? c with
    | some d => stoiHexLoop rest (16 * acc + d)
    | none => acc

/-- Source: `std::stoi(s, nullptr, 16)` on the program format of spec §6 (a bare
hexadecimal literal, no `0x` prefix, no sign, no leading whitespace):
the value of the longest prefix of hexadecimal digits, or
`std::invalid_argument` (`none`) when there is no digit at all. -/
def stoiHex? (cs : List Char) : Option Nat :=
  match cs with
  | [] => none
  | c :: _ =>
    match hexVal? c with
    | none => none
    | some _ => some (stoiHexLoop cs 0)

/-- The `if`/`else if` mnemonic table of `loadProgram`; an unrecognized
mnemonic leaves the initializer `uint16_t opcodeBinary = 0` in place. -/
def opcodeBinary (opcode : List Char) : Nat :=
  if opcode = "SEA".toList then 0xF
  else if opcode = "ADD".toList then 0x2
  else if opcode = "MUL".toList then 0x3
  else if opcode = "DIV".toList then 0x4
  else if opcode = "MOD".toList then 0x5
  else if opcode = "STA".toList then 0x1
  else if opcode = "LDA".toList then 0x0
  else 0

/-- The `while (std::getline(...))` loop of `loadProgram`, with `address`
threaded explicitly (`int address = 0`, `address += 2` per assembled line).
Empty lines are skipped.  The `int` result of `std::stoi` is narrowed to the
`uint16_t operandBinary`, and `(opcodeBinary << 12) | operandBinary` is
narrowed to the `uint16_t instruction`.  An exception from `stoi` or
`writeWord` propagates, leaving the memory written so far. -/
def loadProgramGo : List String → Nat → Mem → Mem × Option Err
  | [], _, mem => (mem, none)
  | line :: rest, address, mem =>
    if line = "" then loadProgramGo rest address mem
    else
      match stoiHex? (operandStr line.toList) with
      | none => (mem, some .InvalidArgument)
      | some v =>
        match Memory.writeWord mem (address : Int)
            (((opcodeBinary (mnemonicStr line.toList) <<< 12) ||| v % 65536) % 65536) with
        | .error e => (mem, some e)
        | .ok mem2 => loadProgramGo rest (address + 2) mem2

/-- Source: `void loadProgram(Memory& memory, ...)`: assembles the program lines into
memory starting at address 0. -/
def loadProgram (lines : List String) (mem : Mem) : Mem × Option Err :=
  loadProgramGo lines 0 mem

/-- The instruction word a well-formed line assembles to:
`(opcodeBinary << 12) | operandBinary`. -/
def assembleLine (line : String) : Nat :=
  ((opcodeBinary (mnemonicStr line.toList) <<< 12) |||
    ((stoiHex? (operandStr line.toList)).getD 0) % 65536) % 65536

/-- The seven mnemonics of spec §6. -/
def mnemonics : List (List Char) :=
  ["SEA".toList, "ADD".toList, "MUL".toList, "DIV".toList,
   "MOD".toList, "STA".toList, "LDA".toList]

/-- A program line of the form `MNEMONIC OPERAND` from spec §6: known
mnemonic before the first space, a hexadecimal literal of 12-bit value
after it. -/
def wfLine (line : String) : Bool :=
  mnemonics.contains (mnemonicStr line.toList) &&
  (match stoiHex? (operandStr line.toList) with
   | some v => decide (v < 4096)
   | none => false)

/-! ## Spec-side definitions and concrete programs -/

/-- Modelled from the spec: the dispatch table of spec §4.4, written row by
row in table order (`0x0` LDA, `0x1` STA, `0x2` ADD, `0x3` MUL, `0x4` DIV,
`0x5` MOD, `0xF` SEA, any other opcode fails with `UnknownOpcode`), with
`opcode = (IR.read() >> 12) & 0xF` and `operand = IR.read() & 0xFFF`.
To be compared with `CPU.execute`, which is translated from the source. -/
def executeSpec (s : CPUState) : CPUState × Option Err :=
  let opcode := (s.IR >>> 12) &&& 0xF
  let operand := s.IR &&& 0xFFF
  match opcode with
  | 0x0 =>
    match Memory.readWord s.mem (operand : Int) with
    | .error e => (s, some e)
    | .ok v => ({ s with AC := v }, none)
  | 0x1 =>
    match Memory.writeWord s.mem (operand : Int) s.AC with
    | .error e => (s, some e)
    | .ok m => ({ s with mem := m }, none)
  | 0x2 => ({ s with AC := ALU.add s.AC operand }, none)
  | 0x3 => ({ s with AC := ALU.mul s.AC operand }, none)
  | 0x4 =>
    match ALU.div s.AC operand with
    | .error e => (s, some e)
    | .ok v => ({ s with AC := v }, none)
  | 0x5 =>
    match ALU.mod s.AC operand with
    | .error e => (s, some e)
    | .ok v => ({ s with AC := v }, none)
  | 0xF => ({ s with AC := operand }, none)
  | _ => (s, some .UnknownOpcode)

/-- The program of end-to-end scenario 1 (spec §8). -/
def scenario1 : List String := ["SEA 0005", "ADD 0003", "STA 0010", "LDA 0010"]

/-- A program of 2049 well-formed lines: one more than fits in the 4096-byte
memory (the last valid word-start address is 4094 = 2 * 2047). -/
def overflowProgram : List String := List.replicate 2049 "SEA 001"

/-! ## Helper lemmas -/

theorem and_255_eq_mod (x : Nat) : x &&& 0xFF = x % 256 := by
  have h := Nat.and_pow_two_sub_one_eq_mod x 8
  norm_num at h
  exact h

theorem wordRoundTrip (v : Nat) (h : v < 65536) :
    ((((v >>> 8) &&& 0xFF) <<< 8) ||| (v &&& 0xFF)) % 65536 = v := by
  have h28 : (2 : Nat) ^ 8 = 256 := by norm_num
  have hlt : v % 256 < 2 ^ 8 := by rw [h28]; exact Nat.mod_lt v (by norm_num)
  rw [and_255_eq_mod, and_255_eq_mod, Nat.shiftRight_eq_div_pow, Nat.shiftLeft_eq,
    Nat.mul_comm (v / 2 ^ 8 % 256) (2 ^ 8), ← Nat.mul_add_lt_is_or hlt, h28]
  omega

/-! ## Claim theorems -/

/-- C6: `ALU.add` returns `(a+b) mod 2^16` and `ALU.mul` returns
`(a*b) mod 2^16`, wrapping on overflow with no saturation and no failure;
in particular `add(0xFFFF, 1) == 0x0000`. -/
theorem alu_add_mul_wrap (a b : Nat) :
    ALU.add a b = (a + b) % 2 ^ 16 ∧ ALU.mul a b = (a * b) % 2 ^ 16 ∧
    ALU.add a b < 2 ^ 16 ∧ ALU.mul a b < 2 ^ 16 ∧
    ALU.add 0xFFFF 1 = 0 := by
  unfold ALU.add ALU.mul
  refine ⟨by norm_num, by norm_num, ?_, ?_, by norm_num⟩ <;>
    · norm_num
      exact Nat.mod_lt _ (by norm_num)

/-- C5: for 16-bit `a` and `b`, `ALU.div` and `ALU.mod` fail with
`DivisionByZero` exactly when `b = 0`; otherwise they return the integer
quotient and remainder (`q = a / b`, `r = a % b` with `a = b * q + r` and
`r < b`), matching native unsigned 16-bit semantics. -/
theorem alu_div_mod_semantics (a b : Nat) (ha : a < 65536) (hb : b < 65536) :
    (b = 0 → ALU.div a b = .error .DivisionByZero ∧
      ALU.mod a b = .error .DivisionByZero) ∧
    (b ≠ 0 → ALU.div a b = .ok (a / b) ∧ ALU.mod a b = .ok (a % b) ∧
      b * (a / b) + a % b = a ∧ a % b < b) := by
  unfold ALU.div ALU.mod
  constructor
  · intro h
    subst h
    simp
  · intro h
    have hq : a / b < 65536 := Nat.lt_of_le_of_lt (Nat.div_le_self a b) ha
    have hr : a % b < b := Nat.mod_lt a (Nat.pos_of_ne_zero h)
    rw [if_neg h, if_neg h, Nat.mod_eq_of_lt hq, Nat.mod_eq_of_lt (by omega)]
    exact ⟨rfl, rfl, Nat.div_add_mod a b, hr⟩

/-- C5 witness: instances at `(a, b) = (7, 3)` and `(a, b) = (7, 0)`. -/
theorem alu_div_mod_semantics_witness :
    ALU.div 7 3 = .ok 2 ∧ ALU.mod 7 3 = .ok 1 ∧
    ALU.div 7 0 = .error .DivisionByZero := by
  refine ⟨((alu_div_mod_semantics 7 3 (by decide) (by decide)).2 (by decide)).1, ?_, ?_⟩
  · exact ((alu_div_mod_semantics 7 3 (by decide) (by decide)).2 (by decide)).2.1
  · exact ((alu_div_mod_semantics 7 0 (by decide) (by decide)).1 rfl).1

/-- C3: `Memory.readWord` and `Memory.writeWord` fail with `OutOfRange` if
and only if the address is below 0 or above 4094 (= size - 2); for addresses
in `[0, 4094]` they succeed. -/
theorem memory_bounds (mem : Mem) (a : Int) (v : Nat) :
    (Memory.readWord mem a = .error .OutOfRange ↔ (a < 0 ∨ 4094 < a)) ∧
    (Memory.writeWord mem a v = .error .OutOfRange ↔ (a < 0 ∨ 4094 < a)) ∧
    (0 ≤ a → a ≤ 4094 →
      (Memory.readWord mem a).isOk = true ∧ (Memory.writeWord mem a v).isOk = true) := by
  unfold Memory.readWord Memory.writeWord MEM_SIZE
  by_cases h : a < 0 ∨ (4096 : Int) - 1 ≤ a
  · rw [if_pos h, if_pos h]
    refine ⟨by simp; omega, by simp; omega, ?_⟩
    intro h0 h1
    omega
  · rw [if_neg h, if_neg h]
    refine ⟨by simp; omega, by simp; omega, ?_⟩
    intro h0 h1
    exact ⟨rfl, rfl⟩

/-- C3 witness: address 4094 is accepted, address 4095 rejected. -/
theorem memory_bounds_witness :
    (Memory.readWord Memory.init 4094).isOk = true ∧
    Memory.readWord Memory.init 4095 = .error .OutOfRange := by
  constructor
  · exact ((memory_bounds Memory.init 4094 0).2.2 (by norm_num) (by norm_num)).1
  · exact (memory_bounds Memory.init 4095 0).1.mpr (by norm_num)

/-- C2: for every address `a` in `[0, 4094]` and 16-bit value `v`,
`writeWord(a, v)` succeeds, stores the high byte of `v` at `a` and the low
byte at `a + 1` (big-endian), and `readWord(a)` then returns `v`. -/
theorem writeWord_readWord_roundtrip (mem : Mem) (a : Int) (v : Nat)
    (ha0 : 0 ≤ a) (ha : a ≤ 4094) (hv : v < 65536) :
    ∃ m', Memory.writeWord mem a v = .ok m' ∧
      m' a = v / 256 ∧ m' (a + 1) = v % 256 ∧
      Memory.readWord m' a = .ok v := by
  have hcond : ¬(a < 0 ∨ MEM_SIZE - 1 ≤ a) := by unfold MEM_SIZE; omega
  unfold Memory.writeWord
  rw [if_neg hcond]
  refine ⟨_, rfl, ?_, ?_, ?_⟩
  · simp only [if_pos rfl]
    rw [and_255_eq_mod, Nat.shiftRight_eq_div_pow]
    norm_num
    omega
  · rw [if_neg (by omega : ¬(a + 1 = a)), if_pos rfl, and_255_eq_mod]
  · unfold Memory.readWord
    rw [if_neg hcond]
    simp only [if_neg (by omega : ¬(a + 1 = a)), eq_self_iff_true, if_true]
    rw [wordRoundTrip v hv]

/-- C2 witness: round trip at address 10 with value 0xABCD. -/
theorem writeWord_readWord_roundtrip_witness :
    (Memory.writeWord Memory.init 10 0xABCD).bind (fun m' => Memory.readWord m' 10) =
      .ok 0xABCD := by
  have h := writeWord_readWord_roundtrip Memory.init 10 0xABCD
    (by norm_num) (by norm_num) (by norm_num)
  obtain ⟨m', h1, h2, h3, h4⟩ := h
  rw [h1]
  simpa [Except.bind] using h4

/-- C1: `CPU.execute` decodes `opcode = (instruction >> 12) & 0xF` and
`operand = instruction & 0xFFF` and dispatches exactly per the table of
spec §4.4 (modelled verbatim as `executeSpec`): 0x0 LDA, 0x1 STA, 0x2 ADD,
0x3 MUL, 0x4 DIV, 0x5 MOD, 0xF SEA, and every other opcode (0x6 through
0xE) fails with `UnknownOpcode`. -/
theorem execute_matches_dispatch_table (s : CPUState) :
    CPU.execute s = executeSpec s := by
  have hk : (s.IR >>> 12) &&& 0xF ≤ 15 := Nat.and_le_right
  unfold CPU.execute executeSpec
  revert hk
  generalize (s.IR >>> 12) &&& 0xF = k
  intro hk
  interval_cases k <;> rfl

/-- C4: a successful `CPU.fetch` reads the word at address `PC` from memory
into `IR` and sets `PC` to that address plus 2, leaving `AC` and the memory
unchanged; when `Memory.readWord` fails, the error is `OutOfRange`, it is
propagated unchanged, and neither `IR` nor `PC` (nor anything else) is
modified. -/
theorem fetch_spec (s : CPUState) :
    (∀ w, Memory.readWord s.mem (s.PC : Int) = .ok w →
      CPU.fetch s = ({ s with IR := w, PC := s.PC + 2 }, none)) ∧
    (∀ e, Memory.readWord s.mem (s.PC : Int) = .error e →
      e = .OutOfRange ∧ CPU.fetch s = (s, some e)) := by
  constructor
  · intro w hw
    have hpc : s.PC ≤ 4094 := by
      by_contra hgt
      unfold Memory.readWord MEM_SIZE at hw
      rw [if_pos (Or.inr (by omega))] at hw
      exact Except.noConfusion hw
    unfold CPU.fetch
    rw [hw, Nat.mod_eq_of_lt (by omega)]
  · intro e he
    have herr : e = .OutOfRange := by
      unfold Memory.readWord at he
      by_cases h : (s.PC : Int) < 0 ∨ MEM_SIZE - 1 ≤ (s.PC : Int)
      · rw [if_pos h] at he
        exact (Except.error.injEq _ _ ▸ he).symm
      · rw [if_neg h] at he
        exact Except.noConfusion he
    refine ⟨herr, ?_⟩
    unfold CPU.fetch
    rw [he]

/-- C4 witness: from the power-on state a fetch loads word 0 and advances
`PC` to 2; with `PC = 4095` the fetch fails with `OutOfRange` and changes
nothing. -/
theorem fetch_spec_witness :
    CPU.fetch CPUState.init = ({ CPUState.init with IR := 0, PC := 2 }, none) ∧
    CPU.fetch { CPUState.init with PC := 4095 } =
      ({ CPUState.init with PC := 4095 }, some .OutOfRange) := by
  constructor
  · exact (fetch_spec CPUState.init).1 0 (by rfl)
  · exact (((fetch_spec { CPUState.init with PC := 4095 }).2 .OutOfRange) (by rfl)).2

/-- C7: when `CPU.execute` fails — with `DivisionByZero` (opcode 0x4 or 0x5
and operand 0) or with `UnknownOpcode` (opcode 0x6 through 0xE) — it changes
nothing: the state it stops in is exactly the state after the preceding
fetch. -/
theorem execute_failure_preserves_state (s : CPUState) :
    (((s.IR >>> 12) &&& 0xF = 0x4 ∨ (s.IR >>> 12) &&& 0xF = 0x5) →
      s.IR &&& 0xFFF = 0 →
      CPU.execute s = (s, some .DivisionByZero)) ∧
    (6 ≤ (s.IR >>> 12) &&& 0xF → (s.IR >>> 12) &&& 0xF ≤ 14 →
      CPU.execute s = (s, some .UnknownOpcode)) := by
  constructor
  · rintro (hop | hop) hoperand <;>
      simp [CPU.execute, hop, hoperand, ALU.div, ALU.mod]
  · intro h6 h14
    unfold CPU.execute
    revert h6 h14
    generalize (s.IR >>> 12) &&& 0xF = k
    intro h6 h14
    rw [if_neg (by omega), if_neg (by omega), if_neg (by omega), if_neg (by omega),
      if_neg (by omega), if_neg (by omega), if_neg (by omega)]

/-- C7 witness: `DIV 000` with `AC = 0` stops with `DivisionByZero` leaving
the state untouched; an instruction with opcode nibble 0x6 stops with
`UnknownOpcode` leaving the state untouched. -/
theorem execute_failure_preserves_state_witness :
    CPU.execute { PC := 4, IR := 0x4000, AC := 0, mem := Memory.init } =
      ({ PC := 4, IR := 0x4000, AC := 0, mem := Memory.init }, some .DivisionByZero) ∧
    CPU.execute { PC := 2, IR := 0x6123, AC := 7, mem := Memory.init } =
      ({ PC := 2, IR := 0x6123, AC := 7, mem := Memory.init }, some .UnknownOpcode) := by
  constructor
  · exact (execute_failure_preserves_state _).1 (Or.inl (by decide)) (by decide)
  · exact (execute_failure_preserves_state _).2 (by decide) (by decide)

/-- C10: the decoded operand is at most 4095; executing LDA or STA with
operand 4095 (the maximum of the 12-bit range) fails with `OutOfRange`,
because the last valid word-start address is 4094; with operand at most
4094 the LDA/STA error branch is unreachable (execution succeeds). -/
theorem lda_sta_operand_edge (s : CPUState) :
    s.IR &&& 0xFFF ≤ 4095 ∧
    (((s.IR >>> 12) &&& 0xF = 0x0 ∨ (s.IR >>> 12) &&& 0xF = 0x1) →
      (s.IR &&& 0xFFF = 4095 → CPU.execute s = (s, some .OutOfRange)) ∧
      (s.IR &&& 0xFFF ≤ 4094 → (CPU.execute s).2 = none)) := by
  refine ⟨Nat.and_le_right, ?_⟩
  rintro (hop | hop) <;> constructor
  · intro hoperand
    simp only [CPU.execute, hop, hoperand]
    norm_num [Memory.readWord, MEM_SIZE]
  · intro hoperand
    have hok : ∀ e, Memory.readWord s.mem ((s.IR &&& 4095 : Nat) : Int) ≠ .error e := by
      intro e hr
      unfold Memory.readWord MEM_SIZE at hr
      split at hr
      · rename_i hcnd
        omega
      · exact Except.noConfusion hr
    simp only [CPU.execute, hop, if_true]
    norm_num
    cases hr : Memory.readWord s.mem ((s.IR &&& 4095 : Nat) : Int) with
    | error e => exact absurd hr (hok e)
    | ok v => rfl
  · intro hoperand
    simp only [CPU.execute, hop, hoperand]
    norm_num [Memory.writeWord, MEM_SIZE]
  · intro hoperand
    have hok : ∀ e, Memory.writeWord s.mem ((s.IR &&& 4095 : Nat) : Int) s.AC ≠ .error e := by
      intro e hr
      unfold Memory.writeWord MEM_SIZE at hr
      split at hr
      · rename_i hcnd
        omega
      · exact Except.noConfusion hr
    simp only [CPU.execute, hop, if_true]
    norm_num
    cases hr : Memory.writeWord s.mem ((s.IR &&& 4095 : Nat) : Int) s.AC with
    | error e => exact absurd hr (hok e)
    | ok v => rfl

/-- C10 witness: `LDA FFF` fails with `OutOfRange`; `STA FFE` succeeds. -/
theorem lda_sta_operand_edge_witness :
    CPU.execute { PC := 2, IR := 0x0FFF, AC := 0, mem := Memory.init } =
      ({ PC := 2, IR := 0x0FFF, AC := 0, mem := Memory.init }, some .OutOfRange) ∧
    (CPU.execute { PC := 2, IR := 0x1FFE, AC := 0, mem := Memory.init }).2 = none := by
  constructor
  · exact ((lda_sta_operand_edge _).2 (Or.inl (by decide))).1 (by decide)
  · exact ((lda_sta_operand_edge _).2 (Or.inr (by decide))).2 (by decide)

/-- C8: starting from zero-initialized registers and a memory holding the
assembled program `SEA 0005; ADD 0003; STA 0010; LDA 0010` at addresses
0, 2, 4, 6, four fetch/execute cycles succeed and leave `AC = 0x0008` and
the memory word at address 0x10 equal to 0x0008. -/
theorem scenario1_end_to_end :
    (loadProgram scenario1 Memory.init).2 = none ∧
    (CPU.runN 4 { PC := 0, IR := 0, AC := 0, mem := (loadProgram scenario1 Memory.init).1 }).2 = none ∧
    (CPU.runN 4 { PC := 0, IR := 0, AC := 0, mem := (loadProgram scenario1 Memory.init).1 }).1.AC = 0x0008 ∧
    Memory.readWord
      (CPU.runN 4 { PC := 0, IR := 0, AC := 0, mem := (loadProgram scenario1 Memory.init).1 }).1.mem
      0x10 = .ok 0x0008 := by
  exact ⟨rfl, rfl, rfl, rfl⟩

/-! ## Loader lemmas -/

theorem writeWord_ok_spec (mem : Mem) (a : Int) (v : Nat) (m2 : Mem)
    (hw : Memory.writeWord mem a v = .ok m2) :
    m2 a = (v >>> 8) &&& 0xFF ∧ m2 (a + 1) = v &&& 0xFF ∧
    ∀ y : Int, y ≠ a → y ≠ a + 1 → m2 y = mem y := by
  unfold Memory.writeWord at hw
  split at hw
  · exact Except.noConfusion hw
  · injection hw with hf
    subst hf
    refine ⟨by simp, ?_, ?_⟩
    · simp [show (a + 1 : Int) ≠ a by omega]
    · intro y hy1 hy2
      simp [hy1, hy2]

theorem writeWord_isOk (mem : Mem) (a : Int) (v : Nat)
    (h0 : 0 ≤ a) (h1 : a ≤ 4094) :
    ∃ m2, Memory.writeWord mem a v = .ok m2 := by
  unfold Memory.writeWord
  rw [if_neg (by unfold MEM_SIZE; omega)]
  exact ⟨_, rfl⟩

theorem readWord_ok_eq (mem : Mem) (a : Int) (h0 : 0 ≤ a) (h1 : a ≤ 4094) :
    Memory.readWord mem a = .ok (((mem a <<< 8) ||| mem (a + 1)) % 65536) := by
  unfold Memory.readWord
  rw [if_neg (by unfold MEM_SIZE; omega)]

theorem opcodeBinary_le (cs : List Char) : opcodeBinary cs ≤ 15 := by
  unfold opcodeBinary
  split_ifs <;> norm_num

theorem instr_lt (op v : Nat) (hop : op ≤ 15) (hv : v < 4096) :
    (op <<< 12) ||| v < 65536 := by
  have h1 : op <<< 12 < 2 ^ 16 := by
    rw [Nat.shiftLeft_eq]
    norm_num
    omega
  have h2 : v < 2 ^ 16 := by norm_num; omega
  have h3 := Nat.or_lt_two_pow h1 h2
  norm_num at h3
  exact h3

theorem loadProgramGo_frame (lines : List String) (addr : Nat) (mem : Mem)
    (x : Int) (hx : x < (addr : Int)) :
    (loadProgramGo lines addr mem).1 x = mem x := by
  induction lines generalizing addr mem with
  | nil => rfl
  | cons line rest ih =>
    by_cases hb : line = ""
    · simp only [loadProgramGo, if_pos hb]
      exact ih addr mem hx
    · cases hst : stoiHex? (operandStr line.toList) with
      | none => simp only [loadProgramGo, if_neg hb, hst]
      | some v =>
        cases hw : Memory.writeWord mem (addr : Int)
            (((opcodeBinary (mnemonicStr line.toList) <<< 12) ||| v % 65536) % 65536) with
        | error e => simp only [loadProgramGo, if_neg hb, hst, hw]
        | ok mem2 =>
          simp only [loadProgramGo, if_neg hb, hst, hw]
          have hspec := writeWord_ok_spec mem _ _ mem2 hw
          rw [ih (addr + 2) mem2 (by push_cast; omega)]
          exact hspec.2.2 x (by omega) (by omega)

theorem loadProgramGo_spec (lines : List String) (addr : Nat) (mem : Mem)
    (hwf : lines.all (fun l => (l == "") || wfLine l) = true)
    (hbound : addr + 2 * (lines.filter (fun l => !(l == ""))).length ≤ 4096) :
    (loadProgramGo lines addr mem).2 = none ∧
    ∀ i w, (lines.filter (fun l => !(l == "")))[i]? = some w →
      Memory.readWord (loadProgramGo lines addr mem).1 ((addr + 2 * i : Nat) : Int) =
        .ok (assembleLine w) := by
  induction lines generalizing addr mem with
  | nil =>
    refine ⟨rfl, ?_⟩
    intro i w hi
    simp at hi
  | cons line rest ih =>
    simp only [List.all_cons, Bool.and_eq_true, Bool.or_eq_true, beq_iff_eq] at hwf
    obtain ⟨hline, hrest⟩ := hwf
    by_cases hb : line = ""
    · subst hb
      have hfilter : (("" : String) :: rest).filter (fun l => !(l == "")) =
          rest.filter (fun l => !(l == "")) := by simp
      have hgo : loadProgramGo ("" :: rest) addr mem = loadProgramGo rest addr mem := by
        simp only [loadProgramGo, eq_self_iff_true, if_true]
      simp only [hfilter] at hbound
      have h := ih addr mem hrest hbound
      refine ⟨by rw [hgo]; exact h.1, ?_⟩
      intro i w hi
      simp only [hfilter] at hi
      rw [hgo]
      exact h.2 i w hi
    · have hwfl : wfLine line = true := hline.resolve_left hb
      have hfilter : (line :: rest).filter (fun l => !(l == "")) =
          line :: rest.filter (fun l => !(l == "")) := by
        simp [List.filter_cons, hb]
      simp only [hfilter, List.length_cons] at hbound
      simp only [wfLine, Bool.and_eq_true] at hwfl
      obtain ⟨hmn, hop⟩ := hwfl
      cases hst : stoiHex? (operandStr line.toList) with
      | none =>
        rw [hst] at hop
        exact absurd hop (by simp)
      | some v =>
        rw [hst] at hop
        have hv : v < 4096 := of_decide_eq_true hop
        have hople : opcodeBinary (mnemonicStr line.toList) ≤ 15 := opcodeBinary_le _
        obtain ⟨mem2, hw⟩ := writeWord_isOk mem (addr : Int)
          (((opcodeBinary (mnemonicStr line.toList) <<< 12) ||| v % 65536) % 65536)
          (by omega) (by omega)
        have hgo : loadProgramGo (line :: rest) addr mem =
            loadProgramGo rest (addr + 2) mem2 := by
          simp only [loadProgramGo, if_neg hb, hst, hw]
        have hrec := ih (addr + 2) mem2 hrest (by omega)
        refine ⟨by rw [hgo]; exact hrec.1, ?_⟩
        intro i w hi
        simp only [hfilter] at hi
        cases i with
        | zero =>
          simp only [List.getElem?_cons_zero, Option.some.injEq] at hi
          subst hi
          rw [hgo]
          have haddr_eq : ((addr + 2 * 0 : Nat) : Int) = (addr : Int) := by push_cast; ring
          rw [haddr_eq]
          have hfin1 := loadProgramGo_frame rest (addr + 2) mem2 (addr : Int) (by push_cast; omega)
          have hfin2 := loadProgramGo_frame rest (addr + 2) mem2 ((addr : Int) + 1) (by push_cast; omega)
          have hwspec := writeWord_ok_spec mem (addr : Int) _ mem2 hw
          rw [readWord_ok_eq _ _ (by omega) (by omega), hfin1, hfin2, hwspec.1, hwspec.2.1,
            wordRoundTrip _ (Nat.mod_lt _ (by norm_num))]
          have hst2 : stoiHex? (operandStr line.data) = some v := hst
          simp [assembleLine, hst2]
        | succ j =>
          simp only [List.getElem?_cons_succ] at hi
          rw [hgo]
          have haddr_eq : ((addr + 2 * (j + 1) : Nat) : Int) = (((addr + 2) + 2 * j : Nat) : Int) := by
            push_cast
            ring
          rw [haddr_eq]
          exact hrec.2 j w hi

/-- C9 (amended with the bound the memory size forces): for every program
text of lines `MNEMONIC OPERAND` (known mnemonic, 12-bit hexadecimal
operand) with at most 2048 non-blank lines, the loader succeeds and writes
for the i-th non-blank line the instruction word
`(opcode << 12) | operand` at memory address `2*i`, skipping blank lines. -/
theorem loader_assembles_sequentially (lines : List String) (mem : Mem)
    (hwf : lines.all (fun l => (l == "") || wfLine l) = true)
    (hlen : (lines.filter (fun l => !(l == ""))).length ≤ 2048) :
    (loadProgram lines mem).2 = none ∧
    ∀ i w, (lines.filter (fun l => !(l == "")))[i]? = some w →
      Memory.readWord (loadProgram lines mem).1 ((2 * i : Nat) : Int) =
        .ok (assembleLine w) := by
  have h := loadProgramGo_spec lines 0 mem hwf (by omega)
  unfold loadProgram
  refine ⟨h.1, ?_⟩
  intro i w hi
  have h2 := h.2 i w hi
  simpa using h2

/-- C9 witness: a three-line program with a blank line in the middle is
laid out at addresses 0 and 2. -/
theorem loader_assembles_sequentially_witness :
    (loadProgram ["SEA 0005", "", "ADD 0003"] Memory.init).2 = none ∧
    Memory.readWord (loadProgram ["SEA 0005", "", "ADD 0003"] Memory.init).1 0 = .ok 0xF005 ∧
    Memory.readWord (loadProgram ["SEA 0005", "", "ADD 0003"] Memory.init).1 2 = .ok 0x2003 := by
  have h := loader_assembles_sequentially ["SEA 0005", "", "ADD 0003"] Memory.init
    (by decide) (by decide)
  refine ⟨h.1, ?_, ?_⟩
  · have h0 := h.2 0 "SEA 0005" (by decide)
    rw [(by decide : assembleLine "SEA 0005" = 0xF005)] at h0
    norm_num at h0
    exact h0
  · have h1 := h.2 1 "ADD 0003" (by decide)
    rw [(by decide : assembleLine "ADD 0003" = 0x2003)] at h1
    norm_num at h1
    exact h1

theorem loadProgramGo_overflow (n : Nat) :
    ∀ (addr : Nat) (mem : Mem), 4095 ≤ addr + 2 * (n - 1) → 1 ≤ n →
      (loadProgramGo (List.replicate n "SEA 001") addr mem).2 = some .OutOfRange ∧
      ∀ x : Int, 4096 ≤ x → (loadProgramGo (List.replicate n "SEA 001") addr mem).1 x = mem x := by
  induction n with
  | zero =>
    intro addr mem hge h1
    omega
  | succ m ih =>
    intro addr mem hge h1
    rw [List.replicate_succ]
    have hne : ¬(("SEA 001" : String) = "") := by decide
    have hst : stoiHex? (operandStr ("SEA 001" : String).toList) = some 1 := by decide
    by_cases haddr : 4095 ≤ addr
    · have hwerr : Memory.writeWord mem (addr : Int)
          (((opcodeBinary (mnemonicStr ("SEA 001" : String).toList) <<< 12) ||| 1 % 65536) % 65536) =
          .error .OutOfRange := by
        unfold Memory.writeWord MEM_SIZE
        rw [if_pos (Or.inr (by push_cast; omega))]
      simp only [loadProgramGo, if_neg hne, hst, hwerr]
      exact ⟨by simp, fun x hx => by simp⟩
    · obtain ⟨mem2, hw⟩ := writeWord_isOk mem (addr : Int)
        (((opcodeBinary (mnemonicStr ("SEA 001" : String).toList) <<< 12) ||| 1 % 65536) % 65536)
        (by omega) (by omega)
      have hgo : loadProgramGo (("SEA 001" : String) :: List.replicate m "SEA 001") addr mem =
          loadProgramGo (List.replicate m "SEA 001") (addr + 2) mem2 := by
        simp only [loadProgramGo, if_neg hne, hst, hw]
      rw [hgo]
      have hm : 1 ≤ m := by omega
      have hrec := ih (addr + 2) mem2 (by omega) hm
      refine ⟨hrec.1, ?_⟩
      intro x hx
      rw [hrec.2 x hx]
      have hwspec := writeWord_ok_spec mem (addr : Int) _ mem2 hw
      exact hwspec.2.2 x (by omega) (by omega)

theorem filter_replicate_of_pos {p : String → Bool} (n : Nat) (a : String) (h : p a = true) :
    (List.replicate n a).filter p = List.replicate n a := by
  induction n with
  | zero => rfl
  | succ m ih => rw [List.replicate_succ, List.filter_cons_of_pos h, ih, ← List.replicate_succ]

/-- C9 counterexample: the claim as stated, with no bound on the program
length, fails on a program of 2049 well-formed lines `SEA 001`: every line
is well-formed and non-blank, yet the loader stops with `OutOfRange`
instead of succeeding, and the word for the 2049th line is never written —
byte 4096, which would hold its high byte 0xF0, keeps its initial value 0. -/
theorem loader_overflow_counterexample :
    overflowProgram.all (fun l => (l == "") || wfLine l) = true ∧
    (overflowProgram.filter (fun l => !(l == ""))).length = 2049 ∧
    (loadProgram overflowProgram Memory.init).2 = some .OutOfRange ∧
    assembleLine "SEA 001" = 0xF001 ∧
    (loadProgram overflowProgram Memory.init).1 4096 = 0 := by
  have hall : overflowProgram.all (fun l => (l == "") || wfLine l) = true := by
    rw [List.all_eq_true]
    intro l hl
    rw [List.eq_of_mem_replicate hl]
    decide
  have hover := loadProgramGo_overflow 2049 0 Memory.init (by norm_num) (by norm_num)
  refine ⟨hall, ?_, ?_, by decide, ?_⟩
  · rw [overflowProgram, filter_replicate_of_pos _ _ (by decide), List.length_replicate]
  · unfold loadProgram overflowProgram
    exact hover.1
  · unfold loadProgram overflowProgram
    have hinit : Memory.init (4096 : Int) = 0 := rfl
    exact (hover.2 4096 (by norm_num)).trans hinit

end SIC
